import Mathlib

/-!
Verification of the COBS framer (`cobsParser.hpp` / its implementation file):
a Consistent Overhead Byte Stuffing encoder/decoder with an appended one-byte
XOR checksum. Bytes are modelled as `Nat` (a `uint8_t` value is < 256; no
arithmetic in the source can overflow a byte: the encoder counter is reset at
255 and the decoder counter is only decremented while positive), byte buffers
as `List Nat`, and the parser object as a structure holding the
validated-message store `m_message`.
-/

/-- Constant `ASCII_NULL` of `cobsParser.hpp`: the sentinel byte value. -/
def ASCII_NULL : Nat := 0

/-- Constant `MAX_BLOCK_SIZE` of `cobsParser.hpp` (0xFF). -/
def MAX_BLOCK_SIZE : Nat := 255

/-- Constant `MAX_FRAME_SIZE` of `cobsParser.hpp`. -/
def MAX_FRAME_SIZE : Nat := 1024

/-- The parser object: its only state is the validated-message store. -/
structure COBSParser where
  m_message : List Nat
  deriving DecidableEq, Repr

/-- `COBSParser::calculateCRC`: XOR of all bytes, accumulator starting at 0,
folded left to right exactly as the `for` loop does. -/
def calculateCRC (data : List Nat) : Nat :=
  data.foldl (fun crc b => crc ^^^ b) 0

/-- The encoding loop of `COBSParser::encodeMessage` (lines 37-57).  State:
the message bytes still to process, `overheadCount`, and the literal bytes
already written into the currently open block (`block`, in buffer order; its
overhead-byte slot was reserved just before it).  Each step mirrors the loop
body: a non-sentinel byte is appended to the block and counted; the block is
closed (its reserved slot receives `overheadCount`) when the byte is the
sentinel or the count reaches `MAX_BLOCK_SIZE`.  The `[]` case is the code
after the loop: the final block's overhead byte, then the terminating
sentinel. -/
def encodeLoop : List Nat → Nat → List Nat → List Nat
  | [], overheadCount, block => overheadCount :: (block ++ [ASCII_NULL])
  | b :: rest, overheadCount, block =>
    if b = ASCII_NULL then
      overheadCount :: (block ++ encodeLoop rest 1 [])
    else if overheadCount + 1 = MAX_BLOCK_SIZE then
      MAX_BLOCK_SIZE :: (block ++ [b] ++ encodeLoop rest 1 [])
    else
      encodeLoop rest (overheadCount + 1) (block ++ [b])

/-- `COBSParser::encodeMessage`: the frame written into `output` (and whose
length is the returned `actualLen`).  The logical message is the input
followed by its CRC byte (line 39: `(i < inputSize) ? input[i] : crc`); the
loop starts with `overheadCount = 0x01` and an empty first block whose
overhead slot is `output[0]`. -/
def encodeMessage (input : List Nat) : List Nat :=
  encodeLoop (input ++ [calculateCRC input]) 1 []

/-- Lines 24-25 of `COBSParser::encodeMessage`: the pre-computed buffer size
`expectedLen = messageSize + messageSize / 254 + 2` with
`messageSize = inputSize + 1`. -/
def expectedLen (inputSize : Nat) : Nat :=
  (inputSize + 1) + (inputSize + 1) / 254 + 2

/-- The decoding loop of `COBSParser::decodeMessage` (lines 89-115).  State:
remaining input, `blockSize` (the loop variable, decremented each iteration),
`overheadCount` (the previous block's overhead byte, initially
`MAX_BLOCK_SIZE`), and the output accumulated so far.  While `blockSize > 0`
bytes are copied verbatim; otherwise the next byte is read as the new block's
overhead byte: the sentinel stops the loop, and a previous overhead byte
below `MAX_BLOCK_SIZE` means an embedded sentinel was dropped there, so one
is re-inserted. -/
def decodeLoop : List Nat → Nat → Nat → List Nat → List Nat
  | [], _, _, output => output
  | b :: rest, blockSize, overheadCount, output =>
    if 0 < blockSize then
      decodeLoop rest (blockSize - 1) overheadCount (output ++ [b])
    else if b = ASCII_NULL then
      output
    else if overheadCount ≠ MAX_BLOCK_SIZE then
      decodeLoop rest (b - 1) b (output ++ [ASCII_NULL])
    else
      decodeLoop rest (b - 1) b output

/-- `COBSParser::decodeMessage`: un-stuff the input, then fail on an empty
result, split off the received CRC (`back`/`pop_back`), validate, and only on
success replace `m_message` (the pair returned is the boolean result and the
parser state afterwards). -/
def decodeMessage (self : COBSParser) (input : List Nat) : Bool × COBSParser :=
  let output := decodeLoop input 0 MAX_BLOCK_SIZE []
  if output = [] then
    (false, self)
  else
    let receivedCRC := output.getLastD 0
    let message := output.dropLast
    let calculatedCRC := calculateCRC message
    if calculatedCRC = receivedCRC then
      (true, { m_message := message })
    else
      (false, self)

/-- Fuel-indexed version of `decodeLoop`, consuming one unit of fuel per loop
iteration alongside the one input byte the iteration reads; `none` when the
fuel runs out with input left.  Used to state that the decode loop performs
at most one iteration per input byte. -/
def decodeLoopFuel : Nat → List Nat → Nat → Nat → List Nat → Option (List Nat)
  | _, [], _, _, output => some output
  | 0, _ :: _, _, _, _ => none
  | fuel + 1, b :: rest, blockSize, overheadCount, output =>
    if 0 < blockSize then
      decodeLoopFuel fuel rest (blockSize - 1) overheadCount (output ++ [b])
    else if b = ASCII_NULL then
      some output
    else if overheadCount ≠ MAX_BLOCK_SIZE then
      decodeLoopFuel fuel rest (b - 1) b (output ++ [ASCII_NULL])
    else
      decodeLoopFuel fuel rest (b - 1) b output

/-- Block structure of an encoded stream: reads an overhead byte `b`, stops at
the sentinel, otherwise takes the `b - 1` literal bytes of that block and
continues.  Fuel-indexed (each block consumes at least its overhead byte). -/
def parseBlocksFuel : Nat → List Nat → List (Nat × List Nat)
  | 0, _ => []
  | _, [] => []
  | fuel + 1, b :: rest =>
    if b = ASCII_NULL then []
    else (b, rest.take (b - 1)) :: parseBlocksFuel fuel (rest.drop (b - 1))

/-- The blocks of a frame, before the terminating sentinel. -/
def parseBlocks (frame : List Nat) : List (Nat × List Nat) :=
  parseBlocksFuel frame.length frame

/-- The number of times the encoding loop closes a block because it became
full (the `overheadCount == MAX_BLOCK_SIZE` disjunct of line 48), as a
function of the message bytes and the running count. -/
def fullClosures : List Nat → Nat → Nat
  | [], _ => 0
  | b :: rest, overheadCount =>
    if b = ASCII_NULL then
      fullClosures rest 1
    else if overheadCount + 1 = MAX_BLOCK_SIZE then
      1 + fullClosures rest 1
    else
      fullClosures rest (overheadCount + 1)

example : encodeMessage [] = [1, 1, 0] := by decide
example : encodeMessage [5] = [3, 5, 5, 0] := by decide
example : encodeMessage [0] = [1, 1, 1, 0] := by decide
example : decodeMessage ⟨[]⟩ [3, 5, 5, 0] = (true, ⟨[5]⟩) := by decide
example : decodeMessage ⟨[9]⟩ [3, 5, 4, 0] = (false, ⟨[9]⟩) := by decide
example : decodeMessage ⟨[9]⟩ [0] = (false, ⟨[9]⟩) := by decide
example : parseBlocks [3, 5, 5, 0] = [(3, [5, 5])] := by decide

/-- Unfolding `decodeMessage` with its let-bindings substituted. -/
theorem decodeMessage_eq (self : COBSParser) (input : List Nat) :
    decodeMessage self input =
      if decodeLoop input 0 MAX_BLOCK_SIZE [] = [] then (false, self)
      else if calculateCRC (decodeLoop input 0 MAX_BLOCK_SIZE []).dropLast =
          (decodeLoop input 0 MAX_BLOCK_SIZE []).getLastD 0 then
        (true, { m_message := (decodeLoop input 0 MAX_BLOCK_SIZE []).dropLast })
      else (false, self) := rfl

/-- A sentinel byte read in overhead position stops the decode loop at once. -/
theorem decodeLoop_sentinel (rest : List Nat) (overheadCount : Nat) (out : List Nat) :
    decodeLoop (ASCII_NULL :: rest) 0 overheadCount out = out := by
  simp [decodeLoop]

/-- Reading a non-sentinel overhead byte: the previous block's overhead byte
decides whether a sentinel is re-inserted, and the new block's remaining
count becomes `b - 1`. -/
theorem decodeLoop_read (b overheadCount : Nat) (rest out : List Nat)
    (hb : b ≠ ASCII_NULL) :
    decodeLoop (b :: rest) 0 overheadCount out =
      decodeLoop rest (b - 1) b
        (out ++ if overheadCount = MAX_BLOCK_SIZE then [] else [ASCII_NULL]) := by
  simp only [decodeLoop]
  rw [if_neg (lt_irrefl 0), if_neg hb]
  split_ifs with h h2 <;> simp_all

/-- While the remaining-block counter equals the length of `lits`, the decode
loop copies `lits` verbatim to the output. -/
theorem decodeLoop_copy (lits : List Nat) :
    ∀ (rest : List Nat) (overheadCount : Nat) (out : List Nat),
      decodeLoop (lits ++ rest) lits.length overheadCount out =
        decodeLoop rest 0 overheadCount (out ++ lits) := by
  induction lits with
  | nil => intro rest oc out; simp
  | cons b lits ih =>
    intro rest oc out
    simp only [List.cons_append, List.length_cons, decodeLoop]
    rw [if_pos (Nat.succ_pos _)]
    simpa [List.append_assoc] using ih rest oc (out ++ [b])

/-- The decode loop inverts the encode loop: decoding the stream the encoder
emits from message remainder `m` and an open block holding the literals
`blk` appends (after the one re-inserted sentinel owed by a partial previous
block) exactly `blk ++ m` to the output. -/
theorem decodeLoop_encodeLoop (m : List Nat) :
    ∀ (blk : List Nat) (prev : Nat) (out : List Nat), blk.length ≤ 253 →
      decodeLoop (encodeLoop m (blk.length + 1) blk) 0 prev out =
        out ++ (if prev = MAX_BLOCK_SIZE then [] else [ASCII_NULL]) ++ (blk ++ m) := by
  induction m with
  | nil =>
    intro blk prev out hblk
    simp only [encodeLoop]
    rw [decodeLoop_read _ _ _ _ (by simp [ASCII_NULL]), Nat.add_sub_cancel,
      decodeLoop_copy blk [ASCII_NULL] _ _, decodeLoop_sentinel]
    simp
  | cons b rest ih =>
    intro blk prev out hblk
    by_cases hb : b = ASCII_NULL
    · rw [show encodeLoop (b :: rest) (blk.length + 1) blk =
          (blk.length + 1) :: (blk ++ encodeLoop rest 1 []) by
        simp [encodeLoop, hb]]
      rw [decodeLoop_read _ _ _ _ (by simp [ASCII_NULL]), Nat.add_sub_cancel,
        decodeLoop_copy blk _ _ _]
      have h2 := ih [] (blk.length + 1)
        ((out ++ if prev = MAX_BLOCK_SIZE then [] else [ASCII_NULL]) ++ blk) (by simp)
      simp only [List.length_nil, Nat.zero_add, List.nil_append] at h2
      have hne : ¬(blk.length + 1 = MAX_BLOCK_SIZE) := by
        simp only [MAX_BLOCK_SIZE]
        omega
      rw [h2, if_neg hne]
      simp [hb]
    · by_cases hc : blk.length + 1 + 1 = MAX_BLOCK_SIZE
      · rw [show encodeLoop (b :: rest) (blk.length + 1) blk =
            MAX_BLOCK_SIZE :: ((blk ++ [b]) ++ encodeLoop rest 1 []) by
          simp only [encodeLoop]; rw [if_neg hb, if_pos hc]]
        rw [decodeLoop_read _ _ _ _ (by simp [ASCII_NULL, MAX_BLOCK_SIZE]),
          show MAX_BLOCK_SIZE - 1 = (blk ++ [b]).length by
            simp only [MAX_BLOCK_SIZE] at hc ⊢
            simp only [List.length_append, List.length_cons, List.length_nil]
            omega,
          decodeLoop_copy (blk ++ [b]) _ _ _]
        have h2 := ih [] MAX_BLOCK_SIZE
          ((out ++ if prev = MAX_BLOCK_SIZE then [] else [ASCII_NULL]) ++ (blk ++ [b])) (by simp)
        simp only [List.length_nil, Nat.zero_add, List.nil_append] at h2
        rw [h2]
        simp
      · rw [show encodeLoop (b :: rest) (blk.length + 1) blk =
            encodeLoop rest ((blk ++ [b]).length + 1) (blk ++ [b]) by
          simp only [encodeLoop]; rw [if_neg hb, if_neg hc]; simp]
        rw [ih (blk ++ [b]) prev out
          (by simp only [MAX_BLOCK_SIZE] at hc
              simp only [List.length_append, List.length_cons, List.length_nil]
              omega)]
        simp

/-- Claim C1: round-trip.  For every payload `p` with
`len(p) ≤ MAX_FRAME_SIZE - 1` (any byte values, embedded sentinels
included), `decodeMessage` applied to `encodeMessage p` returns `true` and
the validated-message store afterwards is exactly `p`. -/
theorem encode_decode_roundtrip (st : COBSParser) (p : List Nat)
    (hbytes : ∀ b ∈ p, b < 256) (hlen : p.length ≤ MAX_FRAME_SIZE - 1) :
    decodeMessage st (encodeMessage p) = (true, { m_message := p }) := by
  have hdec : decodeLoop (encodeMessage p) 0 MAX_BLOCK_SIZE [] =
      p ++ [calculateCRC p] := by
    have h := decodeLoop_encodeLoop (p ++ [calculateCRC p]) [] MAX_BLOCK_SIZE []
      (by simp)
    simpa [encodeMessage] using h
  rw [decodeMessage_eq, hdec]
  simp

/-- Witness for `encode_decode_roundtrip` at a payload containing an embedded
sentinel byte. -/
theorem encode_decode_roundtrip_witness :
    decodeMessage ⟨[]⟩ (encodeMessage [2, 0, 3]) = (true, { m_message := [2, 0, 3] }) :=
  encode_decode_roundtrip ⟨[]⟩ [2, 0, 3] (by decide) (by decide)

/-- Every byte the encode loop emits before the terminating sentinel is
non-zero, as long as the running count is non-zero and the open block holds
no sentinel byte. -/
theorem encodeLoop_front (m : List Nat) :
    ∀ (overheadCount : Nat) (blk : List Nat), overheadCount ≠ ASCII_NULL →
      (∀ x ∈ blk, x ≠ ASCII_NULL) →
      ∃ front, encodeLoop m overheadCount blk = front ++ [ASCII_NULL] ∧
        ∀ x ∈ front, x ≠ ASCII_NULL := by
  induction m with
  | nil =>
    intro c blk hc hblk
    refine ⟨c :: blk, by simp [encodeLoop], ?_⟩
    intro x hx
    rcases List.mem_cons.mp hx with h | h
    · exact h ▸ hc
    · exact hblk x h
  | cons b rest ih =>
    intro c blk hc hblk
    by_cases hb : b = ASCII_NULL
    · obtain ⟨front, hf, hnz⟩ := ih 1 [] (by simp [ASCII_NULL]) (by simp)
      refine ⟨c :: (blk ++ front), ?_, ?_⟩
      · simp only [encodeLoop, if_pos hb, hf]
        simp
      · intro x hx
        rcases List.mem_cons.mp hx with h | h
        · exact h ▸ hc
        · rcases List.mem_append.mp h with h | h
          · exact hblk x h
          · exact hnz x h
    · by_cases hfull : c + 1 = MAX_BLOCK_SIZE
      · obtain ⟨front, hf, hnz⟩ := ih 1 [] (by simp [ASCII_NULL]) (by simp)
        refine ⟨MAX_BLOCK_SIZE :: (blk ++ [b] ++ front), ?_, ?_⟩
        · simp only [encodeLoop, if_neg hb, if_pos hfull, hf]
          simp
        · intro x hx
          rcases List.mem_cons.mp hx with h | h
          · subst h; simp [MAX_BLOCK_SIZE, ASCII_NULL]
          · rcases List.mem_append.mp h with h | h
            · rcases List.mem_append.mp h with h | h
              · exact hblk x h
              · simp only [List.mem_singleton] at h; exact h ▸ hb
            · exact hnz x h
      · obtain ⟨front, hf, hnz⟩ := ih (c + 1) (blk ++ [b]) (by simp [ASCII_NULL])
          (by intro x hx
              rcases List.mem_append.mp hx with h | h
              · exact hblk x h
              · simp only [List.mem_singleton] at h; exact h ▸ hb)
        refine ⟨front, ?_, hnz⟩
        simp only [encodeLoop, if_neg hb, if_neg hfull]
        exact hf

/-- Claim C2: the sentinel appears exactly once in every encoded frame, as
its last byte; every earlier byte (overhead bytes and literals) is
non-zero. -/
theorem encode_sentinel_once (p : List Nat) :
    ∃ front, encodeMessage p = front ++ [ASCII_NULL] ∧
      (∀ x ∈ front, x ≠ ASCII_NULL) ∧
      (encodeMessage p).count ASCII_NULL = 1 := by
  obtain ⟨front, hf, hnz⟩ := encodeLoop_front (p ++ [calculateCRC p]) 1 []
    (by simp [ASCII_NULL]) (by simp)
  have hmsg : encodeMessage p = front ++ [ASCII_NULL] := hf
  refine ⟨front, hmsg, hnz, ?_⟩
  rw [hmsg, List.count_append]
  have h0 : front.count ASCII_NULL = 0 :=
    List.count_eq_zero.mpr (fun h => hnz ASCII_NULL h rfl)
  simp [h0]

/-- Claim C3: `decodeMessage` returns `false` exactly when the un-stuffed
byte sequence is empty or its last byte differs from the XOR checksum of the
bytes before it; on failure `m_message` is untouched, on success it is
replaced with the recovered payload. -/
theorem decode_error_taxonomy (st : COBSParser) (input : List Nat) :
    ((decodeMessage st input).1 = false ↔
      (decodeLoop input 0 MAX_BLOCK_SIZE [] = [] ∨
        calculateCRC (decodeLoop input 0 MAX_BLOCK_SIZE []).dropLast ≠
          (decodeLoop input 0 MAX_BLOCK_SIZE []).getLastD 0)) ∧
    ((decodeMessage st input).1 = false → (decodeMessage st input).2 = st) ∧
    ((decodeMessage st input).1 = true →
      (decodeMessage st input).2.m_message =
        (decodeLoop input 0 MAX_BLOCK_SIZE []).dropLast) := by
  rw [decodeMessage_eq]
  split_ifs with h1 h2 <;> simp_all

/-- Claim C8: the checksum is the XOR fold of its input from accumulator 0:
it is 0 on the empty input, appending a byte XORs it in, and the left fold
the loop performs agrees with the right XOR fold. -/
theorem calculateCRC_spec :
    calculateCRC [] = 0 ∧
    (∀ (data : List Nat) (b : Nat),
        calculateCRC (data ++ [b]) = calculateCRC data ^^^ b) ∧
    (∀ data : List Nat, calculateCRC data = data.foldr (· ^^^ ·) 0) := by
  have hfold : ∀ (l : List Nat) (a : Nat),
      l.foldl (fun crc b => crc ^^^ b) a = a ^^^ l.foldr (· ^^^ ·) 0 := by
    intro l
    induction l with
    | nil => intro a; simp
    | cons b l ih =>
      intro a
      simp only [List.foldl_cons, List.foldr_cons, ih, Nat.xor_assoc]
  refine ⟨rfl, ?_, ?_⟩
  · intro data b
    simp [calculateCRC, List.foldl_append]
  · intro data
    simpa using hfold data 0

/-- Length of the encode loop's output: every message byte costs one output
byte except the sentinels (whose literal is dropped but whose block closure
emits an overhead byte instead), plus one extra overhead byte per full-block
closure, the final block's overhead byte and the terminating sentinel. -/
theorem encodeLoop_length (m : List Nat) :
    ∀ (overheadCount : Nat) (blk : List Nat),
      (encodeLoop m overheadCount blk).length =
        m.length + blk.length + fullClosures m overheadCount + 2 := by
  induction m with
  | nil =>
    intro c blk
    simp only [encodeLoop, fullClosures, List.length_cons, List.length_append,
      List.length_nil]
    omega
  | cons b rest ih =>
    intro c blk
    by_cases hb : b = ASCII_NULL
    · simp only [encodeLoop, fullClosures, if_pos hb, List.length_cons,
        List.length_append, ih 1 [], List.length_nil]
      omega
    · by_cases hfull : c + 1 = MAX_BLOCK_SIZE
      · simp only [encodeLoop, fullClosures, if_neg hb, if_pos hfull,
          List.length_cons, List.length_append, ih 1 [], List.length_nil]
        omega
      · simp only [encodeLoop, fullClosures, if_neg hb, if_neg hfull,
          ih (c + 1) (blk ++ [b]), List.length_append, List.length_cons,
          List.length_nil]
        omega

/-- Each full-block closure consumes 254 freshly accumulated literal bytes,
so with `k` literals already in the open block the closures are bounded by
`(len + k) / 254`. -/
theorem fullClosures_le (m : List Nat) :
    ∀ k : Nat, fullClosures m (k + 1) ≤ (m.length + k) / 254 := by
  induction m with
  | nil => intro k; simp [fullClosures]
  | cons b rest ih =>
    intro k
    by_cases hb : b = ASCII_NULL
    · simp only [fullClosures, if_pos hb, List.length_cons]
      calc fullClosures rest 1 ≤ (rest.length + 0) / 254 := ih 0
        _ ≤ (rest.length + 1 + k) / 254 := Nat.div_le_div_right (by omega)
    · by_cases hfull : k + 1 + 1 = MAX_BLOCK_SIZE
      · have hk : k = 253 := by simp only [MAX_BLOCK_SIZE] at hfull; omega
        subst hk
        simp only [fullClosures, if_neg hb, if_pos hfull, List.length_cons]
        have h1 : fullClosures rest 1 ≤ rest.length / 254 := by
          simpa using ih 0
        have h2 : (rest.length + 1 + 253) / 254 = rest.length / 254 + 1 := by
          rw [show rest.length + 1 + 253 = rest.length + 254 by omega]
          exact Nat.add_div_right _ (by omega)
        omega
      · simp only [fullClosures, if_neg hb, if_neg hfull, List.length_cons]
        calc fullClosures rest (k + 1 + 1) ≤ (rest.length + (k + 1)) / 254 := ih (k + 1)
          _ ≤ (rest.length + 1 + k) / 254 := by
            apply Nat.div_le_div_right
            omega

/-- Claim C4 (amended): the frame length is `(len(p) + 1) + F + 2`, where `F`
counts the full-block closures of the logical message `p ++ [CRC]`; `F` is at
most `⌊(len(p) + 1) / 254⌋`.  (The spec's formula
`len(p) + 1 + ⌊(len(p) + 1) / 254⌋ + 1` omits the first block's overhead
byte and takes `F` at its maximum.) -/
theorem encode_length_exact (p : List Nat) :
    (encodeMessage p).length =
      (p.length + 1) + fullClosures (p ++ [calculateCRC p]) 1 + 2 ∧
    fullClosures (p ++ [calculateCRC p]) 1 ≤ (p.length + 1) / 254 := by
  constructor
  · have h := encodeLoop_length (p ++ [calculateCRC p]) 1 []
    simpa [encodeMessage] using h
  · simpa using fullClosures_le (p ++ [calculateCRC p]) 0

/-- Claim C4 counterexample: for the empty payload the frame has 3 bytes,
not the `len(p) + 1 + ⌊(len(p) + 1)/254⌋ + 1 = 2` the spec's formula gives. -/
theorem encode_length_formula_cex :
    (encodeMessage []).length ≠
      List.length ([] : List Nat) + 1 +
        (List.length ([] : List Nat) + 1) / 254 + 1 := by decide

/-- Claim C5 (amended): the pre-sized buffer length
`messageSize + ⌊messageSize / 254⌋ + 2` (a function of the message size
alone) bounds the final frame length from above, and below 254 logical bytes
the frame length is exactly `messageSize + 2`, independent of content. -/
theorem encode_length_size_bound (p : List Nat) :
    (encodeMessage p).length ≤ (p.length + 1) + (p.length + 1) / 254 + 2 ∧
    (p.length + 1 < 254 → (encodeMessage p).length = (p.length + 1) + 2) := by
  have h := encodeLoop_length (p ++ [calculateCRC p]) 1 []
  have hF : fullClosures (p ++ [calculateCRC p]) 1 ≤ (p.length + 1) / 254 := by
    simpa using fullClosures_le (p ++ [calculateCRC p]) 0
  have hlen : (encodeMessage p).length =
      (p.length + 1) + fullClosures (p ++ [calculateCRC p]) 1 + 2 := by
    simpa [encodeMessage] using h
  constructor
  · omega
  · intro hsmall
    have : (p.length + 1) / 254 = 0 := Nat.div_eq_of_lt hsmall
    omega

/-- Claim C5 witness: the small-message exact length applied to a concrete
payload. -/
theorem encode_length_size_bound_witness :
    (encodeMessage [7, 0, 9]).length ≤ 4 + 4 / 254 + 2 ∧
    (encodeMessage [7, 0, 9]).length = 4 + 2 := by
  have h := encode_length_size_bound [7, 0, 9]
  exact ⟨h.1, h.2 (by decide)⟩

set_option maxRecDepth 10000 in
/-- Claim C5 counterexample: two hundred fifty-three payload bytes beginning
with a sentinel give a 254-byte logical message whose frame has 256 bytes,
not the content-independent `254 + 254/254 + 2 = 257`. -/
theorem encode_length_content_dependent :
    (encodeMessage (ASCII_NULL :: List.replicate 252 1)).length ≠
      ((ASCII_NULL :: List.replicate 252 1).length + 1) +
        ((ASCII_NULL :: List.replicate 252 1).length + 1) / 254 + 2 := by decide

/-- Claim C10: the number of bytes the encoder actually writes (the returned
`actualLen`) never exceeds the pre-computed `expectedLen`, so every write
through the output pointers lands inside the resized buffer and the final
resize only shrinks. -/
theorem encode_writes_within_buffer (p : List Nat) :
    (encodeMessage p).length ≤ expectedLen p.length := by
  have h := encodeLoop_length (p ++ [calculateCRC p]) 1 []
  have hF : fullClosures (p ++ [calculateCRC p]) 1 ≤ (p.length + 1) / 254 := by
    simpa using fullClosures_le (p ++ [calculateCRC p]) 0
  have hlen : (encodeMessage p).length =
      (p.length + 1) + fullClosures (p ++ [calculateCRC p]) 1 + 2 := by
    simpa [encodeMessage] using h
  simp only [expectedLen]
  omega

/-- `input.length` units of fuel always suffice for the decode loop: each
iteration consumes exactly one input byte. -/
theorem decodeLoopFuel_eq (input : List Nat) :
    ∀ (fuel blockSize overheadCount : Nat) (out : List Nat),
      input.length ≤ fuel →
      decodeLoopFuel fuel input blockSize overheadCount out =
        some (decodeLoop input blockSize overheadCount out) := by
  induction input with
  | nil =>
    intro fuel bs oc out h
    cases fuel <;> simp [decodeLoopFuel, decodeLoop]
  | cons b rest ih =>
    intro fuel bs oc out h
    cases fuel with
    | zero => simp at h
    | succ f =>
      have hf : rest.length ≤ f := by
        simpa using h
      simp only [decodeLoopFuel, decodeLoop]
      split_ifs
      · exact ih f _ _ _ hf
      · rfl
      · exact ih f _ _ _ hf
      · exact ih f _ _ _ hf

/-- Claim C9: the decode scan is total on every input: it finishes within
`input.length` iterations (one input byte consumed per iteration), and a
sentinel read in overhead position stops it immediately. -/
theorem decode_total (input : List Nat) :
    (∀ (blockSize overheadCount : Nat) (out : List Nat),
        decodeLoopFuel input.length input blockSize overheadCount out =
          some (decodeLoop input blockSize overheadCount out)) ∧
    (∀ (rest out : List Nat) (overheadCount : Nat),
        decodeLoop (ASCII_NULL :: rest) 0 overheadCount out = out) :=
  ⟨fun bs oc out => decodeLoopFuel_eq input input.length bs oc out le_rfl,
   fun rest out oc => decodeLoop_sentinel rest oc out⟩

/-- Claim C7: the empty payload encodes to the 3-byte frame `[1, 1, 0]` (the
zero checksum of the empty payload closes the block early), and decoding
that frame succeeds with an empty validated payload, whatever the previous
store held. -/
theorem empty_payload_frame :
    encodeMessage [] = [1, 1, ASCII_NULL] ∧
    ∀ st : COBSParser, decodeMessage st [1, 1, ASCII_NULL] = (true, { m_message := [] }) := by
  refine ⟨by decide, fun st => ?_⟩
  have h : decodeLoop [1, 1, ASCII_NULL] 0 MAX_BLOCK_SIZE [] = [ASCII_NULL] := by decide
  rw [decodeMessage_eq, h]
  simp [calculateCRC, ASCII_NULL]

set_option maxRecDepth 20000 in
/-- Claim C6 counterexample: the frame for the 254-byte all-0x01 payload has
three blocks before the terminating sentinel, not two (the zero checksum
byte closes the full block's successor immediately, and the final block is
empty as well). -/
theorem fullBlock_two_blocks_cex :
    (parseBlocks (encodeMessage (List.replicate 254 1))).length ≠ 2 := by decide

set_option maxRecDepth 20000 in
/-- Claim C6 (amended): the 254-byte all-0x01 payload (logical length 255
with its zero checksum) encodes to the frame `0xFF :: 0x01×254 ++ [1, 1, 0]`:
a full leading block with overhead byte exactly 0xFF and 254 literal bytes,
followed by two empty blocks (overhead 1 each) before the terminating
sentinel — three blocks, not two; decoding reinserts no sentinel after the
full block and recovers the payload exactly. -/
theorem fullBlock_boundary :
    encodeMessage (List.replicate 254 1) =
      MAX_BLOCK_SIZE :: (List.replicate 254 1 ++ [1, 1, ASCII_NULL]) ∧
    parseBlocks (encodeMessage (List.replicate 254 1)) =
      [(MAX_BLOCK_SIZE, List.replicate 254 1), (1, []), (1, [])] ∧
    decodeMessage ⟨[]⟩ (encodeMessage (List.replicate 254 1)) =
      (true, { m_message := List.replicate 254 1 }) := by
  refine ⟨by decide, by decide, by decide⟩
